import Mathlib

/-!
Verification of the batch-preparation and training-loop core of `rulm/nnlm.py`.

The Python source is embedded shallowly:
* `process_line` / `preprocess_batch` become pure functions on `List`;
  machine integer arrays become `List Int` (no overflow is exercised);
* Python's `sorted(..., key=..., reverse=True)` (a stable descending sort)
  is embedded as insertion sort `sortDesc`, proved sorted and stable below;
* fallible operations (`max([])` raising `ValueError`, `default_collate`
  failing on ragged rows, the `assert` in `train_file`) return `Option`/`Except`;
* the tensor/autograd library is an external collaborator: its operations are
  oracles (`TorchOps`) and each call is recorded as an explicit event, so that
  the order of side effects performed by the step functions is a theorem.
-/

/-! ### Stable descending sort (Python `sorted(l, key=k, reverse=True)`) -/

/-- Insert `a` into `l`, placing it before the first element whose key is
`≤ key a`.  Elements with strictly larger key stay in front, so repeated
insertion yields the stable descending sort that Python's `sorted` with
`reverse=True` performs. -/
def insertDesc (key : α → Nat) (a : α) : List α → List α
  | [] => [a]
  | b :: bs => if key b ≤ key a then a :: b :: bs else b :: insertDesc key a bs

/-- Stable descending insertion sort by `key`: the embedding of
`sorted(l, key=key, reverse=True)`. -/
def sortDesc (key : α → Nat) : List α → List α
  | [] => []
  | a :: as => insertDesc key a (sortDesc key as)

/-! ### `preprocess_batch` (src/rulm/nnlm.py, lines 31-45) -/

/-- `len([elem for elem in sample if elem != 0])`: the effective length of a
sample, i.e. its count of non-padding (non-zero) entries. -/
def effLength (sample : List Int) : Nat :=
  (sample.filter (fun e => e != 0)).length

/-- `max_length = max(lengths)`: the batch's working length, the maximum
effective length across the batch.  (`max` of the empty list raises
`ValueError` in Python; `preprocessBatch` returns `none` on that input, and
for a non-empty batch `foldr max 0` is exactly the maximum.) -/
def workingLength (batch : List (List Int)) : Nat :=
  (batch.map effLength).foldr Nat.max 0

/-- `pairs = sorted(zip(batch, lengths), key=lambda x: x[1], reverse=True)`. -/
def sortedPairs (batch : List (List Int)) : List (List Int × Nat) :=
  sortDesc Prod.snd (batch.zip (batch.map effLength))

/-- `batch = [sample[:max_length] for sample, _ in pairs]`:
the sorted samples, each truncated to the working length. -/
def sortedTruncated (batch : List (List Int)) : List (List Int) :=
  (sortedPairs batch).map (fun p => p.1.take (workingLength batch))

/-- `lengths.sort(reverse=True)`. -/
def sortedLengths (batch : List (List Int)) : List Nat :=
  sortDesc id (batch.map effLength)

/-- `y = np.zeros(batch.shape); y[:, :-1] = batch[:, 1:]`: per row, the input
row shifted one position left with the final position zero-filled (when the
row width is zero there is no final position and the row stays empty). -/
def yTargets (batch : List (List Int)) : List (List Int) :=
  (sortedTruncated batch).map
    (fun row => if workingLength batch = 0 then [] else row.drop 1 ++ [0])

/-- `torch.transpose(t, 0, 1)` on a 2-D tensor: entry `(i, j)` of the result is
entry `(j, i)` of the input.  On the rectangular tensors the library accepts
the `junk` default is never read. -/
def transposeM (junk : α) (m : List (List α)) : List (List α) :=
  (List.range ((m.headD []).length)).map (fun j => m.map (fun row => row.getD j junk))

/-- The batch object returned by `preprocess_batch`: a dict with exactly the
keys `"x"` and `"y"`.  `lengths : Option _` models the optional `"lengths"`
key that `create_lm_trainer` / `create_lm_evaluator` probe for; this module's
assembler never populates it. -/
structure Batch where
  x : List (List Int)
  y : List (List Int)
  lengths : Option (List Nat)
deriving DecidableEq, Repr

/-- `preprocess_batch`.  `max([])` raises `ValueError` (modelled as `none`),
and `default_collate` fails when the truncated rows do not share one width
(also `none`).  Otherwise the result is the dict
`{"x": transpose(sorted truncated batch), "y": shifted targets}` — no
`"lengths"` key. -/
def preprocessBatch (batch : List (List Int)) : Option Batch :=
  if batch.isEmpty then none
  else if (sortedTruncated batch).all (fun row => row.length == workingLength batch) then
    some { x := transposeM 0 (sortedTruncated batch)
           y := yTargets batch
           lengths := none }
  else none

/-! ### `process_line` (src/rulm/nnlm.py, lines 23-28) -/

/-- `line.strip().split()`: split on runs of whitespace, dropping empty
pieces, as Python's argumentless `str.split` does. -/
def addChar (c : Char) (acc : List Char × List (List Char)) :
    List Char × List (List Char) :=
  if c.isWhitespace then
    ([], if acc.1.isEmpty then acc.2 else acc.1 :: acc.2)
  else (c :: acc.1, acc.2)

/-- The whitespace tokenizer `line.strip().split()`. -/
def splitWords (line : String) : List String :=
  let r := line.toList.foldr addChar ([], [])
  (if r.1.isEmpty then r.2 else r.1 :: r.2).map List.asString

/-- The external vocabulary collaborator (`rulm.vocabulary`, outside this
module): a token-to-index mapping and the reserved end-of-sequence index;
the padding index is 0. -/
structure Vocabulary where
  tokenIndex : String → Nat
  eosIndex : Nat

/-- Modelled from the spec: `Vocabulary.numericalize_inputs(words, reverse)`
of the external `rulm.vocabulary` module (not under `src/`) — map each token
to its vocabulary index, reversing the token order first when `reverse` is
set. -/
def numericalizeInputs (v : Vocabulary) (words : List String) (reverse : Bool) :
    List Nat :=
  (if reverse then words.reverse else words).map v.tokenIndex

/-- Modelled from the spec: `Vocabulary.pad_indices(indices, max_length)` of
the external `rulm.vocabulary` module (not under `src/`) — pad with the
padding index 0 or truncate keeping the earliest `max_length` elements, so
the result has length exactly `max_length`. -/
def padIndices (indices : List Nat) (maxLength : Nat) : List Nat :=
  (indices ++ List.replicate (maxLength - indices.length) 0).take maxLength

/-- `process_line(line, vocabulary, max_length, reverse)`. -/
def processLine (line : String) (v : Vocabulary) (maxLength : Nat)
    (reverse : Bool) : List Nat :=
  padIndices (numericalizeInputs v (splitWords line) reverse ++ [v.eosIndex]) maxLength

/-- The concrete vocabulary of the spec's scenario:
`the=1, cat=2, sat=3, eos=4, pad=0`. -/
def scenarioVocabulary : Vocabulary where
  tokenIndex := fun w => if w = "the" then 1 else if w = "cat" then 2 else if w = "sat" then 3 else 0
  eosIndex := 4

/-! ### `create_lm_trainer` / `create_lm_evaluator` (src/rulm/nnlm.py, 48-84)

The tensor/autograd library is external.  Each primitive it performs is an
oracle in `TorchOps` that may fail (`Except`), and every call the step
functions make is recorded as a `StepEvent`, in call order, so the side-effect
order of `_update` / `_inference` is provable. -/

/-- One observable call into the model / optimizer / autograd library. -/
inductive StepEvent where
  | setTrainMode
  | setEvalMode
  | zeroGrad
  | forwardPlain
  | forwardWithLengths
  | computeLoss
  | backward
  | clipGradNorm : ℚ → StepEvent
  | optimizerStep
deriving DecidableEq, Repr

/-- The external library operations used by one step, over an error type `ε`,
a prediction type `P` (the `y_pred` tensor) and a loss type `L` (the scalar
loss tensor).  A failing operation raises, i.e. returns `Except.error`. -/
structure TorchOps (ε P L : Type) where
  forward : List (List Int) → Except ε P
  forwardWithLengths : List (List Int) → List Nat → Except ε P
  lossFn : P → List (List Int) → Except ε L
  backward : L → Except ε Unit
  clipGrad : ℚ → Except ε Unit
  optStep : Except ε Unit
  lossItem : L → ℚ

/-- Python truthiness of `lengths` in
`y_pred = model(x, lengths) if lengths else model(x)`:
`None` and the empty list are falsy. -/
def truthyLengths : Option (List Nat) → Bool
  | none => false
  | some l => !l.isEmpty

/-- `grad_clipping: int=5.` — the default gradient-clipping threshold of
`create_lm_trainer`. -/
def gradClippingDefault : ℚ := 5

/-- The tail of `_update` after `loss.backward()`:
`if grad_clipping: clip_grad_norm_(...)` (a zero threshold is falsy, so it
skips clipping), then `optimizer.step()`, then `return loss.item()`. -/
def afterBackward (ops : TorchOps ε P L) (gradClipping : ℚ) (lossVal : L) :
    List StepEvent × Except ε ℚ :=
  if gradClipping ≠ 0 then
    match ops.clipGrad gradClipping with
    | .error e => ([.clipGradNorm gradClipping], .error e)
    | .ok _ =>
      match ops.optStep with
      | .error e => ([.clipGradNorm gradClipping, .optimizerStep], .error e)
      | .ok _ => ([.clipGradNorm gradClipping, .optimizerStep], .ok (ops.lossItem lossVal))
  else
    match ops.optStep with
    | .error e => ([.optimizerStep], .error e)
    | .ok _ => ([.optimizerStep], .ok (ops.lossItem lossVal))

/-- The tail of `_update` after the forward pass:
`loss = loss_fn(y_pred, y); loss.backward()`, then `afterBackward`.
A failure anywhere propagates unchanged. -/
def afterForward (ops : TorchOps ε P L) (gradClipping : ℚ) (y : List (List Int))
    (fwdRes : Except ε P) : List StepEvent × Except ε ℚ :=
  match fwdRes with
  | .error e => ([], .error e)
  | .ok yPred =>
    match ops.lossFn yPred y with
    | .error e => ([.computeLoss], .error e)
    | .ok lossVal =>
      match ops.backward lossVal with
      | .error e => ([.computeLoss, .backward], .error e)
      | .ok _ =>
        let t := afterBackward ops gradClipping lossVal
        ([.computeLoss, .backward] ++ t.1, t.2)

/-- The `_update` closure of `create_lm_trainer`: `model.train()`,
`optimizer.zero_grad()`, pick the forward call by the truthiness of the
optional `"lengths"` entry, then loss, backward, optional clipping and one
optimizer step.  Returns the event trace and the scalar loss (or the first
uncaught error). -/
def updateStep (ops : TorchOps ε P L) (gradClipping : ℚ) (batch : Batch) :
    List StepEvent × Except ε ℚ :=
  let fwd : StepEvent × Except ε P :=
    if truthyLengths batch.lengths then
      (.forwardWithLengths, ops.forwardWithLengths batch.x (batch.lengths.getD []))
    else (.forwardPlain, ops.forward batch.x)
  let t := afterForward ops gradClipping batch.y fwd.2
  ([.setTrainMode, .zeroGrad, fwd.1] ++ t.1, t.2)

/-- The `_inference` closure of `create_lm_evaluator`: `model.eval()`, a
forward pass under `torch.no_grad()` with the same branch on `"lengths"`,
returning the `(y_pred, y)` pair. -/
def inferenceStep (ops : TorchOps ε P L) (batch : Batch) :
    List StepEvent × Except ε (P × List (List Int)) :=
  let fwd : StepEvent × Except ε P :=
    if truthyLengths batch.lengths then
      (.forwardWithLengths, ops.forwardWithLengths batch.x (batch.lengths.getD []))
    else (.forwardPlain, ops.forward batch.x)
  ([.setEvalMode, fwd.1],
   match fwd.2 with
   | .error e => .error e
   | .ok yPred => .ok (yPred, batch.y))

/-! ### `NNLanguageModel.predict` (src/rulm/nnlm.py, 135-145)

Tensors of log-probabilities are nested rational lists; `torch.exp` is the
library's elementwise exponential, abstracted as a function `ℚ → ℚ`. -/

/-- 3-D tensor (outermost dimension first). -/
abbrev Ten3 := List (List (List ℚ))

/-- `t.transpose(1, 2)`: swap the two innermost axes of a 3-D tensor. -/
def transpose12T3 (t : Ten3) : Ten3 := t.map (transposeM (0 : ℚ))

/-- `t.transpose(0, 1)`: swap the two outermost axes of a 3-D tensor. -/
def transpose01T3 (t : Ten3) : Ten3 := transposeM ([] : List ℚ) t

/-- `torch.squeeze(t, 1)`: drop dimension 1 when its size is 1 (yielding a
2-D tensor), otherwise return the tensor unchanged. -/
def squeeze1 (t : Ten3) : List (List ℚ) ⊕ Ten3 :=
  if t.all (fun m => m.length == 1) then .inl (t.map (fun m => m.headD []))
  else .inr t

/-- `t[-1]`: the last slice along dimension 0. -/
def lastIdx (l : List α) (junk : α) : α := l.getD (l.length - 1) junk

/-- `t[-1]` applied after the possible squeeze. -/
def lastSlice : List (List ℚ) ⊕ Ten3 → List ℚ ⊕ List (List ℚ)
  | .inl m => .inl (lastIdx m [])
  | .inr t => .inr (lastIdx t [])

/-- `torch.exp(...)` elementwise on the 1-D or 2-D result. -/
def expOut (exp : ℚ → ℚ) : List ℚ ⊕ List (List ℚ) → List ℚ ⊕ List (List ℚ)
  | .inl v => .inl (v.map exp)
  | .inr m => .inr (m.map (fun row => row.map exp))

/-- `NNLanguageModel.predict`: `model.eval()`; `unsqueeze(indices, 1)` makes
the sequence a single-sample batch of width 1 with time as the leading axis;
then `model.forward`, `transpose(1,2).transpose(0,1)`, `squeeze(·, 1)`,
`[-1]`, `exp`.  Returns the eval-mode event and the resulting array (1-D when
the squeeze fired, 2-D otherwise). -/
def predictRun (modelForward : List (List Int) → Ten3) (exp : ℚ → ℚ)
    (indices : List Int) : List StepEvent × (List ℚ ⊕ List (List ℚ)) :=
  let x := indices.map (fun i => [i])
  let result := modelForward x
  let r := transpose01T3 (transpose12T3 result)
  ([.setEvalMode], expOut exp (lastSlice (squeeze1 r)))

/-! ### `NNLanguageModel.train_file` (src/rulm/nnlm.py, 93-133)

The external data source, optimizer and ignite engine are collaborators; the
controller's observable behaviour is the ordered list of actions it performs.
One training run over `numBatches` batches per epoch produces an event per
construction step, per iteration, per validation report (gated by
`iteration % validate_every == 0`) and per checkpoint. -/

/-- The keyword parameters of `train_file` and their defaults. -/
structure TrainConfig where
  epochs : Nat
  batchSize : Nat
  checkpointDir : Option String
  checkpointEvery : Nat
  maxLength : Nat
  reportEvery : Nat
  validateEvery : Nat
deriving DecidableEq, Repr

/-- The default `train_file` keyword arguments: `epochs=20, batch_size=64,
checkpoint_dir=None, checkpoint_every=1, max_length=50, report_every=50,
validate_every=1`. -/
def defaultTrainConfig : TrainConfig :=
  { epochs := 20, batchSize := 64, checkpointDir := none, checkpointEvery := 1
    maxLength := 50, reportEvery := 50, validateEvery := 1 }

/-- One observable action of the `train_file` controller. -/
inductive TrainEvent where
  | buildDataset
  | buildLoader
  | buildOptimizer
  | buildCriterion
  | buildTrainer
  | buildEvaluator
  | addCheckpointHandler
  | trainStep : Nat → TrainEvent
  | validateReport : Nat → TrainEvent
  | checkpoint : Nat → TrainEvent
deriving DecidableEq, Repr

/-- The events of one iteration numbered `i`: the training step, then the
`ITERATION_COMPLETED` handler, which validates and reports exactly when
`trainer.state.iteration % validate_every == 0`. -/
def iterationEvents (i validateEvery : Nat) : List TrainEvent :=
  [TrainEvent.trainStep i]
    ++ (if i % validateEvery == 0 then [TrainEvent.validateReport i] else [])

/-- The events of epoch `e0 + 1`: `numBatches` iterations, then the
`EPOCH_COMPLETED` checkpoint handler (installed only when a checkpoint
directory was given; `ModelCheckpoint` saves every `checkpoint_every`-th
epoch). -/
def epochEvents (e0 numBatches validateEvery checkpointEvery : Nat)
    (hasCk : Bool) : List TrainEvent :=
  ((List.range numBatches).flatMap
      (fun b0 => iterationEvents (e0 * numBatches + b0 + 1) validateEvery))
    ++ (if hasCk && (e0 + 1) % checkpointEvery == 0
        then [TrainEvent.checkpoint (e0 + 1)] else [])

/-- `trainer.run(loader, max_epochs=epochs)`. -/
def runEvents (epochs numBatches validateEvery checkpointEvery : Nat)
    (hasCk : Bool) : List TrainEvent :=
  (List.range epochs).flatMap
    (fun e0 => epochEvents e0 numBatches validateEvery checkpointEvery hasCk)

/-- `train_file`: `assert os.path.exists(file_name)` raises `AssertionError`
before anything else when the file is missing (`fileExists` is the value of
`os.path.exists(file_name)`); otherwise the dataset, loader, optimizer,
criterion, trainer and evaluator are built, the checkpoint handler installed
if configured, and the run executes.  `report_every` is accepted in the
configuration but never read. -/
def trainFile (fileExists : Bool) (cfg : TrainConfig) (numBatches : Nat) :
    Except String (List TrainEvent) :=
  if fileExists then
    Except.ok
      ([TrainEvent.buildDataset, TrainEvent.buildLoader, TrainEvent.buildOptimizer,
        TrainEvent.buildCriterion, TrainEvent.buildTrainer, TrainEvent.buildEvaluator]
        ++ (if cfg.checkpointDir.isSome then [TrainEvent.addCheckpointHandler] else [])
        ++ runEvents cfg.epochs numBatches cfg.validateEvery cfg.checkpointEvery
            cfg.checkpointDir.isSome)
  else Except.error "AssertionError"

/-- The trivial oracle set used to instantiate the step functions on concrete
inputs: every library call succeeds and the loss scalar is `7`. -/
def opsU : TorchOps Unit Unit Unit :=
  { forward := fun _ => .ok ()
    forwardWithLengths := fun _ _ => .ok ()
    lossFn := fun _ _ => .ok ()
    backward := fun _ => .ok ()
    clipGrad := fun _ => .ok ()
    optStep := .ok ()
    lossItem := fun _ => 7 }

/-! ### Helper lemmas about lists -/

theorem getD_map' (f : α → β) {l : List α} {i : Nat} (d₁ : β) (d₂ : α)
    (h : i < l.length) : (l.map f).getD i d₁ = f (l.getD i d₂) := by
  rw [List.getD_eq_getElem _ _ (by simpa using h), List.getElem_map,
    List.getD_eq_getElem _ _ h]

theorem getD_append_len (l : List α) (x d : α) :
    (l ++ [x]).getD l.length d = x := by
  rw [List.getD_append_right _ _ _ _ (Nat.le_refl _), Nat.sub_self]
  rfl

theorem getD_map_range (f : Nat → α) {n k : Nat} (d : α) (h : k < n) :
    ((List.range n).map f).getD k d = f k := by
  rw [List.getD_eq_getElem _ _ (by simpa using h), List.getElem_map,
    List.getElem_range]

theorem getD_mem {l : List α} {i : Nat} (d : α) (h : i < l.length) :
    l.getD i d ∈ l := by
  rw [List.getD_eq_getElem _ _ h]
  exact List.getElem_mem h

theorem snd_eq_of_mem_zip_map {f : α → β} :
    ∀ {l : List α} {p : α × β}, p ∈ l.zip (l.map f) → p.2 = f p.1 := by
  intro l
  induction l with
  | nil => intro p h; simp [List.zip] at h
  | cons a as ih =>
    intro p h
    rcases List.mem_cons.mp h with h | h
    · subst h; rfl
    · exact ih h

theorem foldr_max_mem : ∀ (l : List Nat), l ≠ [] → l.foldr Nat.max 0 ∈ l := by
  intro l
  induction l with
  | nil => intro h; exact absurd rfl h
  | cons a as ih =>
    intro _
    cases as with
    | nil => simp
    | cons b bs =>
      have hmem : (b :: bs).foldr Nat.max 0 ∈ b :: bs := ih (by simp)
      rcases Nat.le_total a ((b :: bs).foldr Nat.max 0) with h | h
      · have he : (a :: b :: bs).foldr Nat.max 0 = (b :: bs).foldr Nat.max 0 :=
          Nat.max_eq_right h
        rw [he]; exact List.mem_cons_of_mem _ hmem
      · have he : (a :: b :: bs).foldr Nat.max 0 = a := Nat.max_eq_left h
        rw [he]; exact List.mem_cons_self _ _

theorem le_foldr_max (l : List Nat) : ∀ x ∈ l, x ≤ l.foldr Nat.max 0 := by
  induction l with
  | nil => intro x h; simp at h
  | cons a as ih =>
    intro x h
    rcases List.mem_cons.mp h with h | h
    · subst h; exact Nat.le_max_left _ _
    · exact Nat.le_trans (ih x h) (Nat.le_max_right _ _)

/-! ### Lemmas about the stable descending sort -/

theorem mem_insertDesc {key : α → Nat} {a x : α} :
    ∀ {l : List α}, x ∈ insertDesc key a l ↔ x = a ∨ x ∈ l := by
  intro l
  induction l with
  | nil => simp [insertDesc]
  | cons b bs ih =>
    by_cases h : key b ≤ key a
    · simp [insertDesc, h]
    · simp only [insertDesc, if_neg h, List.mem_cons, ih]
      tauto

theorem perm_insertDesc (key : α → Nat) (a : α) :
    ∀ (l : List α), (insertDesc key a l).Perm (a :: l) := by
  intro l
  induction l with
  | nil => simp [insertDesc]
  | cons b bs ih =>
    by_cases h : key b ≤ key a
    · simp [insertDesc, h]
    · rw [insertDesc, if_neg h]
      exact (List.Perm.cons b ih).trans (List.Perm.swap a b bs)

theorem sortDesc_perm (key : α → Nat) : ∀ (l : List α), (sortDesc key l).Perm l := by
  intro l
  induction l with
  | nil => simp [sortDesc]
  | cons a as ih =>
    exact ((perm_insertDesc key a (sortDesc key as)).trans (List.Perm.cons a ih))

theorem mem_sortDesc {key : α → Nat} {x : α} {l : List α} :
    x ∈ sortDesc key l ↔ x ∈ l :=
  (sortDesc_perm key l).mem_iff

theorem length_sortDesc (key : α → Nat) (l : List α) :
    (sortDesc key l).length = l.length :=
  (sortDesc_perm key l).length_eq

theorem pairwise_insertDesc (key : α → Nat) (a : α) {l : List α}
    (h : l.Pairwise (fun x y => key y ≤ key x)) :
    (insertDesc key a l).Pairwise (fun x y => key y ≤ key x) := by
  induction l with
  | nil => simp [insertDesc]
  | cons b bs ih =>
    rcases List.pairwise_cons.mp h with ⟨hb, hbs⟩
    by_cases hba : key b ≤ key a
    · rw [insertDesc, if_pos hba]
      refine List.pairwise_cons.mpr ⟨?_, h⟩
      intro x hx
      rcases List.mem_cons.mp hx with hx | hx
      · subst hx; exact hba
      · exact Nat.le_trans (hb x hx) hba
    · rw [insertDesc, if_neg hba]
      refine List.pairwise_cons.mpr ⟨?_, ih hbs⟩
      intro x hx
      rcases mem_insertDesc.mp hx with hx | hx
      · subst hx; exact Nat.le_of_lt (Nat.lt_of_not_le hba)
      · exact hb x hx

theorem sortDesc_pairwise (key : α → Nat) :
    ∀ (l : List α), (sortDesc key l).Pairwise (fun x y => key y ≤ key x) := by
  intro l
  induction l with
  | nil => simp [sortDesc]
  | cons a as ih => exact pairwise_insertDesc key a ih

theorem filter_insertDesc (key : α → Nat) (a : α) (k : Nat) :
    ∀ (l : List α),
      (insertDesc key a l).filter (fun x => key x == k)
        = if key a == k then a :: l.filter (fun x => key x == k)
          else l.filter (fun x => key x == k) := by
  intro l
  induction l with
  | nil => by_cases h : key a = k <;> simp [insertDesc, List.filter_cons, h]
  | cons b bs ih =>
    by_cases hba : key b ≤ key a
    · rw [insertDesc, if_pos hba]
      by_cases h : key a = k <;> simp [List.filter_cons, h]
    · rw [insertDesc, if_neg hba]
      by_cases h : key a = k
      · have hbk : ¬ key b = k := by
          intro hb; exact hba (by rw [hb, h])
        simp [List.filter_cons, h, hbk, ih]
      · by_cases hb : key b = k <;> simp [List.filter_cons, h, hb, ih]

theorem sortDesc_filter_key (key : α → Nat) (k : Nat) :
    ∀ (l : List α),
      (sortDesc key l).filter (fun x => key x == k)
        = l.filter (fun x => key x == k) := by
  intro l
  induction l with
  | nil => rfl
  | cons a as ih =>
    rw [sortDesc, filter_insertDesc, ih]
    by_cases h : key a = k <;> simp [List.filter_cons, h]

theorem insertDesc_cons_of_le (key : α → Nat) (a : α) {b : α} {bs : List α}
    (h : key b ≤ key a) : insertDesc key a (b :: bs) = a :: b :: bs := by
  rw [insertDesc, if_pos h]

theorem sortDesc_of_all_eq (key : α → Nat) (k : Nat) :
    ∀ (l : List α), (∀ x ∈ l, key x = k) → sortDesc key l = l := by
  intro l
  induction l with
  | nil => intro _; rfl
  | cons a as ih =>
    intro h
    rw [sortDesc, ih (fun x hx => h x (List.mem_cons_of_mem _ hx))]
    cases as with
    | nil => rfl
    | cons b bs =>
      exact insertDesc_cons_of_le key a (by
        rw [h b (by simp), h a (by simp)])

theorem map_insertDesc (f : α → β) (key : α → Nat) (key' : β → Nat)
    (hk : ∀ x, key' (f x) = key x) (a : α) :
    ∀ (l : List α),
      (insertDesc key a l).map f = insertDesc key' (f a) (l.map f) := by
  intro l
  induction l with
  | nil => rfl
  | cons b bs ih =>
    by_cases h : key b ≤ key a
    · have h' : key' (f b) ≤ key' (f a) := by rw [hk, hk]; exact h
      simp only [insertDesc, if_pos h, List.map_cons, if_pos h']
    · have h' : ¬ key' (f b) ≤ key' (f a) := by rw [hk, hk]; exact h
      simp only [insertDesc, if_neg h, List.map_cons, if_neg h', ih]

theorem map_sortDesc (f : α → β) (key : α → Nat) (key' : β → Nat)
    (hk : ∀ x, key' (f x) = key x) :
    ∀ (l : List α), (sortDesc key l).map f = sortDesc key' (l.map f) := by
  intro l
  induction l with
  | nil => rfl
  | cons a as ih =>
    rw [sortDesc, map_insertDesc f key key' hk, ih, List.map_cons, sortDesc]

/-! ### Lemmas about `preprocessBatch` -/

theorem effLength_le_length (s : List Int) : effLength s ≤ s.length :=
  List.length_filter_le _ _

theorem workingLength_mem {batch : List (List Int)} (hne : batch ≠ []) :
    workingLength batch ∈ batch.map effLength :=
  foldr_max_mem _ (by simpa using hne)

theorem le_workingLength {batch : List (List Int)} :
    ∀ l ∈ batch.map effLength, l ≤ workingLength batch :=
  le_foldr_max _

theorem workingLength_le {batch : List (List Int)} {n : Nat} (hne : batch ≠ [])
    (hw : ∀ s ∈ batch, s.length = n) : workingLength batch ≤ n := by
  rcases List.mem_map.mp (workingLength_mem hne) with ⟨s, hs, he⟩
  rw [← he]
  exact Nat.le_trans (effLength_le_length s) (Nat.le_of_eq (hw s hs))

theorem mem_sortedPairs {batch : List (List Int)} {p : List Int × Nat}
    (hp : p ∈ sortedPairs batch) : p.1 ∈ batch ∧ p.2 = effLength p.1 := by
  have h := mem_sortDesc.mp hp
  obtain ⟨p1, p2⟩ := p
  exact ⟨(List.of_mem_zip h).1, snd_eq_of_mem_zip_map h⟩

theorem length_sortedPairs (batch : List (List Int)) :
    (sortedPairs batch).length = batch.length := by
  rw [sortedPairs, length_sortDesc, List.length_zip, List.length_map,
    Nat.min_self]

theorem length_sortedTruncated (batch : List (List Int)) :
    (sortedTruncated batch).length = batch.length := by
  rw [sortedTruncated, List.length_map, length_sortedPairs]

theorem sortedTruncated_row_length {batch : List (List Int)} {n : Nat}
    (hne : batch ≠ []) (hw : ∀ s ∈ batch, s.length = n) :
    ∀ row ∈ sortedTruncated batch, row.length = workingLength batch := by
  intro row hr
  rcases List.mem_map.mp hr with ⟨p, hp, he⟩
  rcases mem_sortedPairs hp with ⟨h1, _⟩
  rw [← he, List.length_take, hw p.1 h1]
  exact Nat.min_eq_left (workingLength_le hne hw)

theorem preprocessBatch_eq {batch : List (List Int)} {n : Nat}
    (hne : batch ≠ []) (hw : ∀ s ∈ batch, s.length = n) :
    preprocessBatch batch
      = some ⟨transposeM 0 (sortedTruncated batch), yTargets batch, none⟩ := by
  have h0 : batch.isEmpty = false := by
    cases batch with
    | nil => exact absurd rfl hne
    | cons a as => rfl
  have h1 : (sortedTruncated batch).all
      (fun row => row.length == workingLength batch) = true := by
    simp only [List.all_eq_true, beq_iff_eq]
    exact sortedTruncated_row_length hne hw
  rw [preprocessBatch, h0, h1]
  rfl

/-- C1: For every batch assembled by `preprocess_batch` (non-empty, rows of
one common width, as the line encoder produces), the target array `y` is the
sorted-truncated pre-transpose input shifted one position left along the time
axis — `y[i][t] = x[i][t+1]` for `t + 1` below the working length — and the
final time position of every row of `y` is the padding index 0. -/
theorem c1_shifted_targets (batch : List (List Int)) (n : Nat)
    (hne : batch ≠ []) (hw : ∀ s ∈ batch, s.length = n) :
    preprocessBatch batch
        = some ⟨transposeM 0 (sortedTruncated batch), yTargets batch, none⟩
      ∧ (yTargets batch).length = batch.length
      ∧ (∀ row ∈ yTargets batch, row.length = workingLength batch)
      ∧ (∀ i t, t + 1 < workingLength batch →
          ((yTargets batch).getD i []).getD t 0
            = ((sortedTruncated batch).getD i []).getD (t + 1) 0)
      ∧ (0 < workingLength batch → ∀ i,
          ((yTargets batch).getD i []).getD (workingLength batch - 1) 0 = 0) := by
  refine ⟨preprocessBatch_eq hne hw, ?_, ?_, ?_, ?_⟩
  · rw [yTargets, List.length_map, length_sortedTruncated]
  · intro row hr
    rcases List.mem_map.mp hr with ⟨row', hr', he⟩
    have hlen := sortedTruncated_row_length hne hw row' hr'
    by_cases h0 : workingLength batch = 0
    · rw [← he, if_pos h0, h0]
      rfl
    · rw [← he, if_neg h0, List.length_append, List.length_drop, hlen]
      simp only [List.length_cons, List.length_nil]
      omega
  · intro i t ht
    have h0 : ¬ workingLength batch = 0 := by omega
    by_cases hi : i < (sortedTruncated batch).length
    · rw [yTargets,
        getD_map' (fun row => if workingLength batch = 0 then []
          else row.drop 1 ++ [0]) [] [] hi,
        if_neg h0]
      have hrow' : (sortedTruncated batch).getD i [] ∈ sortedTruncated batch :=
        getD_mem [] hi
      have hlen := sortedTruncated_row_length hne hw _ hrow'
      cases hcr : (sortedTruncated batch).getD i [] with
      | nil =>
        rw [hcr] at hlen
        simp only [List.length_nil] at hlen
        omega
      | cons a rest =>
        rw [hcr] at hlen
        simp only [List.length_cons] at hlen
        have htr : t < rest.length := by omega
        show (rest ++ [0]).getD t 0 = (a :: rest).getD (t + 1) 0
        rw [List.getD_cons_succ, List.getD_append _ _ _ _ htr]
    · push_neg at hi
      have hyi : (yTargets batch).length ≤ i := by
        rw [yTargets, List.length_map]; exact hi
      rw [List.getD_eq_default _ _ hyi, List.getD_eq_default _ _ hi]
      simp [List.getD_nil]
  · intro hwl i
    by_cases hi : i < (sortedTruncated batch).length
    · have h0 : ¬ workingLength batch = 0 := by omega
      rw [yTargets,
        getD_map' (fun row => if workingLength batch = 0 then []
          else row.drop 1 ++ [0]) [] [] hi,
        if_neg h0]
      have hrow' : (sortedTruncated batch).getD i [] ∈ sortedTruncated batch :=
        getD_mem [] hi
      have hlen := sortedTruncated_row_length hne hw _ hrow'
      have hdl : (((sortedTruncated batch).getD i []).drop 1).length
          = workingLength batch - 1 := by
        rw [List.length_drop, hlen]
      rw [← hdl, getD_append_len]
    · push_neg at hi
      have hyi : (yTargets batch).length ≤ i := by
        rw [yTargets, List.length_map]; exact hi
      rw [List.getD_eq_default _ _ hyi]
      simp [List.getD_nil]

/-- Witness for C1 on the concrete batch `[[1,2,0],[3,0,0]]`. -/
theorem c1_shifted_targets_witness :
    preprocessBatch [[1, 2, 0], [3, 0, 0]]
      = some ⟨transposeM 0 (sortedTruncated [[1, 2, 0], [3, 0, 0]]),
          yTargets [[1, 2, 0], [3, 0, 0]], none⟩ :=
  (c1_shifted_targets [[1, 2, 0], [3, 0, 0]] 3 (by decide) (by decide)).1

theorem zip_map_self_eq (f : α → β) :
    ∀ (l : List α), l.zip (l.map f) = l.map (fun a => (a, f a)) := by
  intro l
  induction l with
  | nil => rfl
  | cons a as ih =>
    simp only [List.map_cons, List.zip] at *
    simp [List.zipWith, ih]

/-- C2: After assembly, the samples are ordered by descending effective
length; the sort is stable (the subsequence of pairs at any fixed effective
length `k` is unchanged, so a batch with all lengths equal keeps its input
order); each sample stays paired with its own effective length through the
permutation (and the separately sorted `lengths` list coincides with the
lengths carried by the sorted pairs); and a single-sample batch is assembled
without error. -/
theorem c2_stable_descending_sort (batch : List (List Int)) (k : Nat) :
    (sortedPairs batch).Pairwise (fun a b => b.2 ≤ a.2)
    ∧ (sortedPairs batch).filter (fun p => p.2 == k)
        = (batch.zip (batch.map effLength)).filter (fun p => p.2 == k)
    ∧ (∀ p ∈ sortedPairs batch, p.2 = effLength p.1)
    ∧ sortedLengths batch = (sortedPairs batch).map Prod.snd
    ∧ ((∀ s ∈ batch, effLength s = k) →
        sortedPairs batch = batch.zip (batch.map effLength))
    ∧ (∀ s : List Int, preprocessBatch [s]
        = some ⟨transposeM 0 (sortedTruncated [s]), yTargets [s], none⟩) := by
  refine ⟨sortDesc_pairwise Prod.snd _, sortDesc_filter_key Prod.snd k _,
    fun p hp => (mem_sortedPairs hp).2, ?_, ?_, ?_⟩
  · rw [sortedLengths, sortedPairs,
      map_sortDesc Prod.snd Prod.snd id (fun x => rfl), zip_map_self_eq,
      List.map_map]
    rfl
  · intro h
    rw [sortedPairs]
    apply sortDesc_of_all_eq Prod.snd k
    intro p hp
    rw [snd_eq_of_mem_zip_map hp]
    exact h p.1 (List.of_mem_zip hp).1
  · intro s
    exact preprocessBatch_eq (n := s.length) (by simp) (by simp)

/-- Witness for C2: stability on the concrete batch `[[1,0],[2,0],[3,4]]`
(two samples tied at effective length 1 keep their input order). -/
theorem c2_stable_descending_sort_witness :
    (sortedPairs [[1, 0], [2, 0], [3, 4]]).filter (fun p => p.2 == 1)
      = ([[1, 0], [2, 0], [3, 4]].zip
          ([[1, 0], [2, 0], [3, 4]].map effLength)).filter (fun p => p.2 == 1) :=
  (c2_stable_descending_sort [[1, 0], [2, 0], [3, 4]] 1).2.1

/-- C3: The working length is the maximum effective length over the batch
(it is attained by a sample and bounds every sample's effective length), and
every sequence of the assembled batch is truncated to exactly that working
length (not the fixed encoder width `n`). -/
theorem c3_working_length_truncation (batch : List (List Int)) (n : Nat)
    (hne : batch ≠ []) (hw : ∀ s ∈ batch, s.length = n) :
    workingLength batch ∈ batch.map effLength
    ∧ (∀ l ∈ batch.map effLength, l ≤ workingLength batch)
    ∧ (sortedTruncated batch).length = batch.length
    ∧ (∀ row ∈ sortedTruncated batch, row.length = workingLength batch)
    ∧ preprocessBatch batch
        = some ⟨transposeM 0 (sortedTruncated batch), yTargets batch, none⟩ :=
  ⟨workingLength_mem hne, le_workingLength, length_sortedTruncated batch,
    sortedTruncated_row_length hne hw, preprocessBatch_eq hne hw⟩

/-- Witness for C3 on the spec's scenario batch: effective lengths 5 and 2,
encoder width 7; the assembler succeeds with both rows truncated to the
working length. -/
theorem c3_working_length_truncation_witness :
    preprocessBatch [[1, 2, 3, 4, 5, 0, 0], [6, 7, 0, 0, 0, 0, 0]]
      = some ⟨transposeM 0 (sortedTruncated [[1, 2, 3, 4, 5, 0, 0], [6, 7, 0, 0, 0, 0, 0]]),
          yTargets [[1, 2, 3, 4, 5, 0, 0], [6, 7, 0, 0, 0, 0, 0]], none⟩ :=
  (c3_working_length_truncation [[1, 2, 3, 4, 5, 0, 0], [6, 7, 0, 0, 0, 0, 0]] 7
    (by decide) (by decide)).2.2.2.2

/-- C10: `preprocess_batch` is undefined on the empty batch — `max` of the
empty length list has no value, so the assembly fails — while on every
non-empty batch of encoded sequences (rows of one common width) it
completes. -/
theorem c10_empty_batch (batch : List (List Int)) (n : Nat)
    (hne : batch ≠ []) (hw : ∀ s ∈ batch, s.length = n) :
    preprocessBatch ([] : List (List Int)) = none
    ∧ ∃ B, preprocessBatch batch = some B :=
  ⟨rfl, ⟨_, preprocessBatch_eq hne hw⟩⟩

/-- Witness for C10 at the one-sample batch `[[5]]`. -/
theorem c10_empty_batch_witness :
    preprocessBatch ([] : List (List Int)) = none :=
  (c10_empty_batch [[5]] 1 (by decide) (by decide)).1

/-- C4: `process_line` always returns exactly `max_length` indices — split on
whitespace, map tokens to indices (reversed under the flag), append the
end-of-sequence index, pad with the padding index or truncate keeping the
earliest elements — and on the spec's scenario (`the=1, cat=2, sat=3, eos=4,
pad=0`, width 6) the line `"the cat sat"` encodes to `[1,2,3,4,0,0]`. -/
theorem c4_process_line_fixed_width :
    (∀ (line : String) (v : Vocabulary) (maxLength : Nat) (reverse : Bool),
      (processLine line v maxLength reverse).length = maxLength)
    ∧ processLine "the cat sat" scenarioVocabulary 6 false = [1, 2, 3, 4, 0, 0] := by
  refine ⟨?_, by decide⟩
  intro line v m r
  rw [processLine, padIndices, List.length_take, List.length_append,
    List.length_replicate]
  omega

/-! ### Lemmas about the step functions -/

theorem fwl_not_mem_afterBackward {ε P L : Type} (ops : TorchOps ε P L)
    (g : ℚ) (lv : L) :
    StepEvent.forwardWithLengths ∉ (afterBackward ops g lv).1 := by
  unfold afterBackward
  repeat' split
  all_goals simp

theorem fwl_not_mem_afterForward {ε P L : Type} (ops : TorchOps ε P L)
    (g : ℚ) (y : List (List Int)) (r : Except ε P) :
    StepEvent.forwardWithLengths ∉ (afterForward ops g y r).1 := by
  unfold afterForward
  repeat' split
  all_goals simp [fwl_not_mem_afterBackward]

/-- C5: One invocation of the training step performs, in order: training
mode, gradient clearing, forward pass, loss against `y`, backpropagation,
gradient-norm clipping at the default threshold 5, and exactly one optimizer
step, returning the scalar loss; and it catches nothing — an error raised by
the forward pass, the loss, or the backward pass propagates unchanged. -/
theorem c5_training_step_order {ε P L : Type} (ops : TorchOps ε P L)
    (B : Batch) (hlen : B.lengths = none) :
    (∀ p lv, ops.forward B.x = .ok p → ops.lossFn p B.y = .ok lv →
      ops.backward lv = .ok () → ops.clipGrad gradClippingDefault = .ok () →
      ops.optStep = .ok () →
      updateStep ops gradClippingDefault B
          = ([.setTrainMode, .zeroGrad, .forwardPlain, .computeLoss, .backward,
              .clipGradNorm gradClippingDefault, .optimizerStep],
             .ok (ops.lossItem lv))
        ∧ (updateStep ops gradClippingDefault B).1.count .optimizerStep = 1)
    ∧ (∀ e, ops.forward B.x = .error e →
        (updateStep ops gradClippingDefault B).2 = .error e)
    ∧ (∀ p e, ops.forward B.x = .ok p → ops.lossFn p B.y = .error e →
        (updateStep ops gradClippingDefault B).2 = .error e)
    ∧ (∀ p lv e, ops.forward B.x = .ok p → ops.lossFn p B.y = .ok lv →
        ops.backward lv = .error e →
        (updateStep ops gradClippingDefault B).2 = .error e) := by
  have htr : truthyLengths B.lengths = false := by rw [hlen]; rfl
  have h5 : gradClippingDefault ≠ 0 := by decide
  refine ⟨?_, ?_, ?_, ?_⟩
  · intro p lv hf hl hb hc ho
    have heq : updateStep ops gradClippingDefault B
        = ([.setTrainMode, .zeroGrad, .forwardPlain, .computeLoss, .backward,
            .clipGradNorm gradClippingDefault, .optimizerStep],
           .ok (ops.lossItem lv)) := by
      simp [updateStep, afterForward, afterBackward, htr, hf, hl, hb, hc, ho, h5]
    exact ⟨heq, by rw [heq]; rfl⟩
  · intro e hf
    simp [updateStep, afterForward, htr, hf]
  · intro p e hf hl
    simp [updateStep, afterForward, htr, hf, hl]
  · intro p lv e hf hl hb
    simp [updateStep, afterForward, htr, hf, hl, hb]

/-- Witness for C5 at the all-succeeding oracle set and a one-sample batch. -/
theorem c5_training_step_order_witness :
    updateStep opsU gradClippingDefault ⟨[[1]], [[0]], none⟩
      = ([.setTrainMode, .zeroGrad, .forwardPlain, .computeLoss, .backward,
          .clipGradNorm gradClippingDefault, .optimizerStep], .ok 7) :=
  ((c5_training_step_order opsU ⟨[[1]], [[0]], none⟩ rfl).1 () () rfl rfl rfl
    rfl rfl).1

/-- C9: Every batch `preprocess_batch` returns carries exactly `x` and `y`
and no `lengths` entry, so both the training step and the evaluation step
take the lengths-absent branch: their traces always contain the plain
`model(x)` call and never the `model(x, lengths)` call. -/
theorem c9_no_lengths_key (batch : List (List Int)) (B : Batch)
    {ε P L : Type} (ops : TorchOps ε P L) (g : ℚ)
    (hB : preprocessBatch batch = some B) :
    B.lengths = none
    ∧ StepEvent.forwardPlain ∈ (updateStep ops g B).1
    ∧ StepEvent.forwardWithLengths ∉ (updateStep ops g B).1
    ∧ StepEvent.forwardPlain ∈ (inferenceStep ops B).1
    ∧ StepEvent.forwardWithLengths ∉ (inferenceStep ops B).1 := by
  have hnone : B.lengths = none := by
    rw [preprocessBatch] at hB
    by_cases h1 : batch.isEmpty
    · rw [if_pos h1] at hB; exact absurd hB (by simp)
    · rw [if_neg h1] at hB
      by_cases h2 : (sortedTruncated batch).all
          (fun row => row.length == workingLength batch)
      · rw [if_pos h2] at hB
        injection hB with h
        rw [← h]
      · rw [if_neg h2] at hB; exact absurd hB (by simp)
  have htr : truthyLengths B.lengths = false := by rw [hnone]; rfl
  refine ⟨hnone, ?_, ?_, ?_, ?_⟩
  · simp [updateStep, htr]
  · simp [updateStep, htr, fwl_not_mem_afterForward]
  · simp [inferenceStep, htr]
  · simp [inferenceStep, htr]

/-- Witness for C9 at the concrete batch `[[1,0],[2,3]]`. -/
theorem c9_no_lengths_key_witness :
    StepEvent.forwardPlain
      ∈ (updateStep opsU 5 ⟨[[2, 1], [3, 0]], [[3, 0], [0, 0]], none⟩).1 :=
  (c9_no_lengths_key [[1, 0], [2, 3]] ⟨[[2, 1], [3, 0]], [[3, 0], [0, 0]], none⟩
    opsU 5 (by decide)).2.1

/-- C7: `train_file` with a missing input file raises the assertion before
any work — no dataset, loader, optimizer, trainer or training step is
reached — while with an existing file the precondition passes and the run
proceeds. -/
theorem c7_missing_file_fails_fast (cfg : TrainConfig) (numBatches : Nat) :
    trainFile false cfg numBatches = Except.error "AssertionError"
    ∧ ∃ evs, trainFile true cfg numBatches = Except.ok evs :=
  ⟨rfl, ⟨_, rfl⟩⟩

/-- C8: `report_every` is accepted but never consulted — two runs differing
only in `report_every` behave identically — and reporting is gated solely by
`iteration % validate_every == 0`. -/
theorem c8_report_every_unused (fileExists : Bool) (cfg : TrainConfig)
    (numBatches r1 r2 i v : Nat) (_hv : 0 < v) :
    trainFile fileExists { cfg with reportEvery := r1 } numBatches
        = trainFile fileExists { cfg with reportEvery := r2 } numBatches
    ∧ (TrainEvent.validateReport i ∈ iterationEvents i v ↔ i % v = 0) := by
  refine ⟨rfl, ?_⟩
  rw [iterationEvents]
  by_cases h : i % v = 0
  · simp [h]
  · simp [h]

/-- Witness for C8: the default configuration with `report_every` 1 versus
99 over 3 batches per epoch. -/
theorem c8_report_every_unused_witness :
    trainFile true { defaultTrainConfig with reportEvery := 1 } 3
      = trainFile true { defaultTrainConfig with reportEvery := 99 } 3 :=
  (c8_report_every_unused true defaultTrainConfig 3 1 99 2 1 (by decide)).1

/-- C6 counterexample: feed `predict` a model that returns log-probability
distributions shaped `(time, batch, vocab) = (2, 1, 3)`, exactly as the claim
states the model contract.  With the identity as the library exponential, the
claim demands the final time step's distribution `[4, 5, 6]` (length = vocab
size 3); the code instead produces the 2-D array `[[3], [6]]` — the last
*vocabulary* slice across time — so the claim fails at this input. -/
theorem c6_predict_counterexample :
    predictRun (fun _ => [[[1, 2, 3]], [[4, 5, 6]]]) (fun q => q) [0, 1]
        = ([StepEvent.setEvalMode], Sum.inr [[3], [6]])
      ∧ predictRun (fun _ => [[[1, 2, 3]], [[4, 5, 6]]]) (fun q => q) [0, 1]
        ≠ ([StepEvent.setEvalMode], Sum.inl [4, 5, 6]) := by
  exact ⟨by decide, by decide⟩

/-- C6 (amended): `predict` sets evaluation mode, feeds the sequence as a
single-sample width-1 batch with time leading, and — for a model returning
log-probability distributions shaped `(batch, vocab, time)`, the orientation
the trainer's NLL loss also requires — returns the elementwise exponential of
the final time step's distribution, a dense array whose length equals the
vocabulary size. -/
theorem c6_predict_amended (M : List (List ℚ)) (T : Nat) (exp : ℚ → ℚ)
    (indices : List Int) (hT : 0 < T) (hrow : ∀ row ∈ M, row.length = T) :
    predictRun (fun _ => [M]) exp indices
        = ([StepEvent.setEvalMode],
           Sum.inl (M.map (fun row => exp (row.getD (T - 1) 0))))
      ∧ (M.map (fun row => exp (row.getD (T - 1) 0))).length = M.length := by
  refine ⟨?_, List.length_map _ _⟩
  cases M with
  | nil => rfl
  | cons r rs =>
    have hTr : r.length = T := hrow r (by simp)
    have hMt : (transposeM (0 : ℚ) (r :: rs)).length = T := by
      rw [transposeM, List.length_map, List.length_range]
      simpa using hTr
    have h1 : transpose01T3 (transpose12T3 [r :: rs])
        = (List.range (transposeM (0 : ℚ) (r :: rs)).length).map
            (fun j => [(transposeM (0 : ℚ) (r :: rs)).getD j []]) := rfl
    have h2 : ((List.range (transposeM (0 : ℚ) (r :: rs)).length).map
        (fun j => [(transposeM (0 : ℚ) (r :: rs)).getD j []])).all
          (fun m => m.length == 1) = true := by
      simp [List.all_eq_true]
    simp only [predictRun]
    rw [h1, squeeze1, if_pos h2]
    simp only [lastSlice, List.map_map]
    rw [lastIdx, List.length_map, List.length_range, hMt]
    rw [getD_map_range _ ([] : List ℚ) (by omega : T - 1 < T)]
    simp only [Function.comp]
    rw [transposeM]
    have hhd : ((r :: rs).headD []).length = T := by simpa using hTr
    rw [hhd, getD_map_range _ ([] : List ℚ) (by omega : T - 1 < T)]
    simp only [expOut, List.headD_cons, List.map_map]
    rfl

/-- Witness for the amended C6: a `(1, 3, 2)`-shaped model output; `predict`
returns the exponential (here: identity) of the final time step's
distribution `[2, 4, 6]`, of length 3 = vocabulary size. -/
theorem c6_predict_amended_witness :
    predictRun (fun _ => [[[1, 2], [3, 4], [5, 6]]]) (fun q => q) [7]
      = ([StepEvent.setEvalMode], Sum.inl [2, 4, 6]) :=
  (c6_predict_amended [[1, 2], [3, 4], [5, 6]] 2 (fun q => q) [7] (by decide)
    (by decide)).1
